import Mathlib

/-!
Verification development for the SigNoz agent-configuration control plane
and its series-formula utility.

Part 1 embeds `pkg/query-service/app/formula.go` (label-set subset
matching, joining series on timestamps, and formula evaluation over the
join).  Series values are `float64` in Go; the claims under study never
depend on value arithmetic, and the expression evaluator (govaluate) is an
external collaborator, so values are abstracted to `Int` and the evaluator
is modelled as an opaque capability.

Part 2 models the version/history manager, pipeline compiler and protocol
server.  Their implementations are not part of the sources at hand (only
their integration tests are), so these definitions are modelled from the
specification; each such definition says so in its doc comment.
-/

namespace Signoz

/-- Label set of a series: Go `map[string]string`.  Modelled as an
association list; well-formedness (`Nodup` keys) mirrors the uniqueness of
keys that Go maps guarantee by construction. -/
abbrev Labels := List (String × String)

/-- Keys of a label set are pairwise distinct, as in a Go map. -/
def WfLabels (ls : Labels) : Prop := (ls.map Prod.fst).Nodup

instance (ls : Labels) : Decidable (WfLabels ls) := by
  unfold WfLabels; infer_instance

/-- Go map indexing `ls[k]`: the value at key `k`, if present. -/
def lookupLabel : Labels → String → Option String
  | [], _ => none
  | kv :: rest, k => if kv.1 = k then some kv.2 else lookupLabel rest k

/-- From formula.go: `isSubset(super, sub)` — true when every key/value
pair of `sub` is present in `super`. -/
def isSubset (super sub : Labels) : Bool :=
  sub.all fun kv => decide (lookupLabel super kv.1 = some kv.2)

/-- Propositional form of `isSubset super sub = true`. -/
def SubsetOf (sub super : Labels) : Prop :=
  ∀ kv ∈ sub, lookupLabel super kv.1 = some kv.2

/-- One data point of a series (Go `v3.Point`); the float64 value is
abstracted to `Int`. -/
structure Point where
  timestamp : Int
  value : Int
deriving DecidableEq, Repr

/-- One series of a query result (Go `v3.Series`).  The `LabelsArray`
field of the Go struct is a derived rendering of `Labels` whose order
comes from Go map iteration (unspecified); no claim refers to it and it is
not modelled. -/
structure Series where
  labels : Labels
  points : List Point
deriving DecidableEq, Repr

/-- One query result (Go `v3.Result`). -/
structure Result where
  queryName : String
  series : List Series
deriving DecidableEq, Repr

/-- The govaluate expression, modelled as an external capability: the list
of variables it mentions, and an opaque evaluator from a variable binding
to a value or an evaluation error (the Go code's "expected float64" cast
failure is folded into the error case). -/
structure EvaluableExpression where
  vars : List String
  evaluate : (String → Int) → Except String Int

/-- From formula.go `findUniqueLabelSets`: the label sets of all series of
all results, in traversal order. -/
def allLabelSets (results : List Result) : List Labels :=
  results.flatMap fun r => r.series.map (·.labels)

/-- From formula.go: sort the label sets by number of labels, descending
(`sort.Slice` with `len(allLabelSets[i]) > len(allLabelSets[j])`; Go's
`sort.Slice` leaves the order among equal lengths unspecified, so any sort
by this comparator is a faithful model). -/
def labelSetsByLenDesc (ls : List Labels) : List Labels :=
  ls.insertionSort fun a b => b.length ≤ a.length

/-- From formula.go: the body of the uniqueness loop — keep `labelSet`
only when it is not a subset of a label set already kept. -/
def insertUnique (uniqueSets : List Labels) (labelSet : Labels) : List Labels :=
  if uniqueSets.any fun u => isSubset u labelSet then uniqueSets
  else uniqueSets ++ [labelSet]

/-- From formula.go `findUniqueLabelSets`: sort all label sets by size
descending, then keep those that are not subsumed by an earlier kept
set. -/
def findUniqueLabelSets (results : List Result) : List Labels :=
  (labelSetsByLenDesc (allLabelSets results)).foldl insertUnique []

/-- From formula.go `joinAndCalculate`: the first series of `series` whose
labels are a subset of `labelSet` (`isSubset(uniqueLabelSet, series.Labels)`),
if any. -/
def firstMatch (labelSet : Labels) : List Series → Option Series
  | [] => none
  | s :: rest => if isSubset labelSet s.labels then some s else firstMatch labelSet rest

/-- Go map write `m[t] = v` for the per-query timestamp-to-value map. -/
def updT (m : List (Int × Int)) (t v : Int) : List (Int × Int) :=
  match m with
  | [] => [(t, v)]
  | tv :: rest => if tv.1 = t then (t, v) :: rest else tv :: updT rest t v

/-- Go map read for the per-query timestamp-to-value map. -/
def lookupT : List (Int × Int) → Int → Option Int
  | [], _ => none
  | tv :: rest, t => if tv.1 = t then some tv.2 else lookupT rest t

/-- The nested Go map `seriesMap : map[queryName]map[timestamp]value`. -/
abbrev SeriesMap := List (String × List (Int × Int))

/-- Go write `seriesMap[q][t] = v`, creating the inner map when absent. -/
def updQ (sm : SeriesMap) (q : String) (t v : Int) : SeriesMap :=
  match sm with
  | [] => [(q, [(t, v)])]
  | qm :: rest => if qm.1 = q then (q, updT qm.2 t v) :: rest else qm :: updQ rest q t v

/-- Go read `seriesMap[q]`. -/
def lookupQ : SeriesMap → String → Option (List (Int × Int))
  | [], _ => none
  | qm :: rest, q => if qm.1 = q then some qm.2 else lookupQ rest q

/-- From formula.go `joinAndCalculate`: build `seriesMap` by inserting,
for each result that has a matching series, every point of that series
under the result's query name. -/
def buildSeriesMap (results : List Result) (labelSet : Labels) : SeriesMap :=
  results.foldl
    (fun sm r =>
      match firstMatch labelSet r.series with
      | none => sm
      | some s => s.points.foldl (fun sm2 p => updQ sm2 r.queryName p.timestamp p.value) sm)
    []

/-- From formula.go `joinAndCalculate`: the timestamps contributed by the
matching series of each result (the key set of `uniqueTimestamps` before
sorting, with multiplicity). -/
def collectTimestamps (results : List Result) (labelSet : Labels) : List Int :=
  results.flatMap fun r =>
    match firstMatch labelSet r.series with
    | none => []
    | some s => s.points.map (·.timestamp)

/-- From formula.go `joinAndCalculate`: the distinct joined timestamps in
ascending order (Go collects map keys and sorts them with `<`). -/
def sortedTimestamps (results : List Result) (labelSet : Labels) : List Int :=
  (collectTimestamps results labelSet).dedup.insertionSort (· ≤ ·)

/-- From formula.go `joinAndCalculate`: the variable binding used at
timestamp `t` — the value recorded in `seriesMap`, and `0` for a missing
query or missing timestamp (Go map zero values / the explicit default). -/
def envAt (sm : SeriesMap) (t : Int) : String → Int :=
  fun name =>
    match lookupQ sm name with
    | none => 0
    | some m =>
      match lookupT m t with
      | none => 0
      | some v => v

/-- From formula.go `joinAndCalculate`: evaluate the expression at each
timestamp in order, producing one point per timestamp; the first
evaluation error aborts. -/
def evalPoints (expr : EvaluableExpression) (sm : SeriesMap) :
    List Int → Except String (List Point)
  | [] => .ok []
  | t :: ts =>
    match expr.evaluate (envAt sm t) with
    | .error e => .error e
    | .ok v =>
      match evalPoints expr sm ts with
      | .error e => .error e
      | .ok pts => .ok ({ timestamp := t, value := v } :: pts)

/-- From formula.go `joinAndCalculate`: build the series map; if some
expression variable has no entry (no matching series with at least one
point), return no series and no error; otherwise evaluate the expression
over the sorted distinct joined timestamps. -/
def joinAndCalculate (results : List Result) (uniqueLabelSet : Labels)
    (expr : EvaluableExpression) : Except String (Option Series) :=
  let sm := buildSeriesMap results uniqueLabelSet
  if expr.vars.any fun v => (lookupQ sm v).isNone then .ok none
  else
    match evalPoints expr sm (sortedTimestamps results uniqueLabelSet) with
    | .error e => .error e
    | .ok pts => .ok (some { labels := uniqueLabelSet, points := pts })

/-- From formula.go `processResults`: run `joinAndCalculate` for each
unique label set in order, keeping the returned series and skipping label
sets that produced none; the first error aborts. -/
def seriesForLabelSets (results : List Result) (expr : EvaluableExpression) :
    List Labels → Except String (List Series)
  | [] => .ok []
  | ls :: rest =>
    match joinAndCalculate results ls expr with
    | .error e => .error e
    | .ok none => seriesForLabelSets results expr rest
    | .ok (some s) =>
      match seriesForLabelSets results expr rest with
      | .error e => .error e
      | .ok acc => .ok (s :: acc)

/-- From formula.go `processResults`. -/
def processResults (results : List Result) (expr : EvaluableExpression) :
    Except String Result :=
  match seriesForLabelSets results expr (findUniqueLabelSets results) with
  | .error e => .error e
  | .ok newSeries => .ok { queryName := "", series := newSeries }

/-- Modelled from the spec: one comparison item of a structured boolean
filter (§4.1) — an attribute with a declared namespace/type, a comparison
operator, and a literal value.  The implementation
(`queryBuilderToExpr` and the v3 filter model) is not among the sources at
hand. -/
structure FilterItem where
  keyName : String
  keyType : String
  op : String
  value : String
deriving DecidableEq, Repr

/-- Modelled from the spec: a filter set — a top-level boolean combinator
(AND/OR) and an ordered list of comparison items (§4.1). -/
structure FilterSet where
  operator : String
  items : List FilterItem
deriving DecidableEq, Repr

/-- Modelled from the spec: the mapping from a filter item's comparison
operator to the target filtering language's operator (§4.1 leaves the
concrete table unspecified). -/
def mapFilterOp (op : String) : String :=
  if op = "=" then "==" else op

/-- Modelled from the spec: an item's normalized namespace-qualified
reference (§4.1). -/
def filterItemRef (it : FilterItem) : String :=
  it.keyType ++ "." ++ it.keyName

/-- Modelled from the spec: the compiled form of one comparison item
(§4.1; the concrete rendering is unspecified, only that it combines the
normalized reference, the mapped operator and the literal value). -/
def compileFilterItem (it : FilterItem) : String :=
  filterItemRef it ++ " " ++ mapFilterOp it.op ++ " " ++ it.value

/-- Modelled from the spec: the join string for a recognized top-level
combinator, `none` for an unrecognized one (§4.1). -/
def combinatorJoin (c : String) : Option String :=
  if c = "AND" then some " && " else if c = "OR" then some " || " else none

/-- Modelled from the spec: the Filter Expression Compiler (§4.1) — fails
when the item list is empty or the combinator is unrecognized, otherwise
joins the compiled items with the combinator. -/
def compileFilter (fs : FilterSet) : Except String String :=
  if fs.items.isEmpty then .error "filter items must not be empty"
  else
    match combinatorJoin fs.operator with
    | none => .error "unrecognized filter combinator"
    | some j => .ok (String.intercalate j (fs.items.map compileFilterItem))

/-- Modelled from the spec: one operator of a pipeline (§3).  `typ` is the
Go field `Type`. -/
structure PipelineOperator where
  orderId : Nat
  id : String
  typ : String
  field : String
  value : String
  enabled : Bool
  name : String
  output : Option String
deriving DecidableEq, Repr

/-- Modelled from the spec: one pipeline definition (§3).  `aliasName` is
the Go field `Alias` (`alias` is reserved in Lean). -/
structure Pipeline where
  orderId : Nat
  name : String
  aliasName : String
  enabled : Bool
  filter : FilterSet
  config : List PipelineOperator
deriving DecidableEq, Repr

/-- Modelled from the spec: the fixed marker prefixed to every
pipeline-owned processor name (`constants.LogsPPLPfx`; the concrete
string is not among the sources at hand). -/
def logsPPLPfx : String := "logstransform/pipeline_"

/-- Modelled from the spec: the deterministic processor name derived from
a pipeline's stable alias (§4.2). -/
def collectorConfProcessorName (p : Pipeline) : String :=
  logsPPLPfx ++ p.aliasName

/-- Modelled from the spec: one compiled pipeline processor — its name,
the single route condition of its leading routing stage, and the ordered
operator chain that follows (§4.2). -/
structure PipelineProcessor where
  name : String
  routerRouteExpr : String
  operators : List PipelineOperator
deriving DecidableEq, Repr

/-- Modelled from the spec: pipelines in ascending `OrderId` (§4.2). -/
def pipelinesSortedByOrder (ps : List Pipeline) : List Pipeline :=
  ps.insertionSort fun a b => a.orderId ≤ b.orderId

/-- Modelled from the spec: the enabled pipelines, in ascending
`OrderId` — exactly the pipelines that produce processors (§4.2). -/
def enabledPipelinesInOrder (ps : List Pipeline) : List Pipeline :=
  (pipelinesSortedByOrder ps).filter (·.enabled)

/-- Modelled from the spec: compile one enabled pipeline into its
processor — a routing stage whose single route condition is the compiled
filter, followed by the operators in ascending `OrderId` (§4.2). -/
def buildProcessor (p : Pipeline) : Except String PipelineProcessor :=
  match compileFilter p.filter with
  | .error e => .error e
  | .ok expr =>
    .ok { name := collectorConfProcessorName p
          routerRouteExpr := expr
          operators := p.config.insertionSort fun a b => a.orderId ≤ b.orderId }

/-- Modelled from the spec: compile a list of pipelines into processors in
order, aborting on the first compilation failure (§4.2). -/
def buildProcessors : List Pipeline → Except String (List PipelineProcessor)
  | [] => .ok []
  | p :: rest =>
    match buildProcessor p with
    | .error e => .error e
    | .ok proc =>
      match buildProcessors rest with
      | .error e => .error e
      | .ok procs => .ok (proc :: procs)

/-- Modelled from the spec: the Pipeline Compiler
(`PreparePipelineProcessor`, §4.2) — one named processor per enabled
pipeline in ascending `OrderId`, plus the ordered processor-name list. -/
def preparePipelineProcessor (ps : List Pipeline) :
    Except String (List PipelineProcessor × List String) :=
  match buildProcessors (enabledPipelinesInOrder ps) with
  | .error e => .error e
  | .ok procs => .ok (procs, procs.map (·.name))

/-- Modelled from the spec: a compiled bundle — the processors fragment
plus the ordered `service.pipelines.logs.processors` name list (base
processors followed by the pipeline-owned ones, §4.2, §6). -/
structure CompiledBundle where
  processors : List PipelineProcessor
  logsServiceProcessorNames : List String
deriving DecidableEq, Repr

/-- Modelled from the spec: the pre-existing base processors of the logs
service (§4.2 only requires that the pipeline-owned names are appended
after them). -/
def baseLogsProcessors : List String := ["batch"]

/-- Modelled from the spec: the content hash of a compiled bundle — a
pure function of the bundle (§3; the concrete algorithm is an open
question in the spec, any deterministic function is faithful). -/
def hashBundle (b : CompiledBundle) : String :=
  String.intercalate ";" (b.logsServiceProcessorNames ++ b.processors.map (·.routerRouteExpr))

/-- Modelled from the spec: one immutable configuration version (§3). -/
structure ConfigVersion where
  versionNumber : Nat
  hash : String
  pipelines : List Pipeline
  bundle : CompiledBundle
deriving DecidableEq, Repr

/-- Modelled from the spec: a version's deployment status (§3). -/
inductive DeployStatus where
  | Initiated
  | Deployed
  | Unknown
deriving DecidableEq, Repr

/-- Modelled from the spec: a deployment record, paired 1:1 with a
version; history is ordered newest-first (§3). -/
structure DeploymentRecord where
  version : ConfigVersion
  status : DeployStatus
deriving DecidableEq, Repr

/-- Modelled from the spec: when the newest history record is Initiated,
demote it to Unknown (§4.3 `CreateVersion`). -/
def demoteInitiated : List DeploymentRecord → List DeploymentRecord
  | [] => []
  | r :: rest =>
    if r.status = .Initiated then { r with status := .Unknown } :: rest else r :: rest

/-- Modelled from the spec: `CreateVersion` on the history — demote a
still-Initiated newest record to Unknown, then insert the new version as
the newest record with status Initiated (§4.3). -/
def createVersion (hist : List DeploymentRecord) (v : ConfigVersion) :
    List DeploymentRecord :=
  { version := v, status := .Initiated } :: demoteInitiated hist

/-- Modelled from the spec: `OnAcknowledgment(hash)` — find the deployment
record with matching hash; if it is currently Initiated, mark it Deployed;
if no record matches, leave the history unchanged (a no-op, not an error:
the operation is total and returns the history, §4.3). -/
def onAcknowledgment : List DeploymentRecord → String → List DeploymentRecord
  | [], _ => []
  | r :: rest, hsh =>
    if r.version.hash = hsh then
      (if r.status = .Initiated then { r with status := .Deployed } else r) :: rest
    else
      r :: onAcknowledgment rest hsh

/-- Modelled from the spec: the per-feature state owned by the
Version/History Manager. -/
structure AppState where
  history : List DeploymentRecord
deriving DecidableEq, Repr

/-- Modelled from the spec: `GetLatest()` — the most recent version's
pipeline definitions (or empty if none exist) and the full history,
unmodified (§4.3). -/
def getLatest (st : AppState) : List Pipeline × List DeploymentRecord :=
  ((match st.history with
    | [] => []
    | r :: _ => r.version.pipelines),
   st.history)

/-- Histories reachable from the empty history by the mutating manager
operations (`GetLatest` is a pure read and does not change the history). -/
inductive Reachable : List DeploymentRecord → Prop
  | init : Reachable []
  | create (v : ConfigVersion) {h : List DeploymentRecord} :
      Reachable h → Reachable (createVersion h v)
  | ack (hsh : String) {h : List DeploymentRecord} :
      Reachable h → Reachable (onAcknowledgment h hsh)

/-- One mutating operation on a feature's history. -/
inductive HistoryOp where
  | create (v : ConfigVersion)
  | ack (hsh : String)

/-- Apply one operation to a history. -/
def applyOp (hist : List DeploymentRecord) : HistoryOp → List DeploymentRecord
  | .create v => createVersion hist v
  | .ack hsh => onAcknowledgment hist hsh

/-- Apply a sequence of operations, oldest first. -/
def applyOps (hist : List DeploymentRecord) (ops : List HistoryOp) :
    List DeploymentRecord :=
  ops.foldl applyOp hist

/-- Number of `create` operations in a sequence: how far an existing
record is shifted down the newest-first history. -/
def countCreates : List HistoryOp → Nat
  | [] => 0
  | .create _ :: rest => countCreates rest + 1
  | .ack _ :: rest => countCreates rest

/-- Modelled from the spec: the allowed attribute namespaces for an
operator's target field (§3, §4.2; the integration tests accept
`attributes.test` and reject `bad.field`). -/
def allowedOperatorField (f : String) : Bool :=
  "attributes.".data.isPrefixOf f.data || "resource.".data.isPrefixOf f.data

/-- Modelled from the spec: per-pipeline operator validation — positive
distinct `OrderId` values and allowed fields (§4.3 `CreateVersion`). -/
def operatorsValid (ops : List PipelineOperator) : Bool :=
  (ops.all fun op => decide (0 < op.orderId) && allowedOperatorField op.field) &&
    decide (ops.map (·.orderId)).Nodup

/-- Modelled from the spec: validation of one pipeline — positive
`OrderId`, non-empty filter with a recognized combinator, valid
operators (§4.3). -/
def pipelineValid (p : Pipeline) : Bool :=
  decide (0 < p.orderId) && !p.filter.items.isEmpty &&
    (combinatorJoin p.filter.operator).isSome && operatorsValid p.config

/-- Modelled from the spec: validation of a submission — every pipeline
valid, pipeline `OrderId` values distinct (§4.3; the spec only requires a
human-readable reason, not a particular message). -/
def validatePipelines (ps : List Pipeline) : Except String Unit :=
  if ps.all pipelineValid && decide (ps.map (·.orderId)).Nodup then .ok ()
  else .error "invalid pipelines submission"

/-- Modelled from the spec: the submission surface (§4.3 `CreateVersion`,
§6) — validate, compile, then atomically create the new version as the
newest Initiated history record; on any failure return a 400-equivalent
outcome and leave the state untouched. -/
inductive SubmitOutcome where
  | ok (pipelines : List Pipeline) (history : List DeploymentRecord)
  | badRequest (reason : String)
deriving DecidableEq, Repr

/-- Modelled from the spec: handle one submission (§4.3, §6). -/
def handleSubmission (st : AppState) (ps : List Pipeline) :
    AppState × SubmitOutcome :=
  match validatePipelines ps with
  | .error e => (st, .badRequest e)
  | .ok _ =>
    match preparePipelineProcessor ps with
    | .error e => (st, .badRequest e)
    | .ok (procs, names) =>
      let bundle : CompiledBundle :=
        { processors := procs
          logsServiceProcessorNames := baseLogsProcessors ++ names }
      let v : ConfigVersion :=
        { versionNumber := st.history.length + 1
          hash := hashBundle bundle
          pipelines := ps
          bundle := bundle }
      let newHist := createVersion st.history v
      ({ history := newHist }, .ok ps newHist)

/-- Modelled from the spec: one inbound agent message as the Protocol
Server's decision logic sees it — the instance identifier and, when the
message carries an applied-configuration acknowledgment, the acknowledged
hash (§4.4, §6). -/
structure InboundMessage where
  instanceUid : String
  ackAppliedHash : Option String
deriving DecidableEq, Repr

/-- Go map read of the per-agent last-known-applied hash. -/
def lookupAgentHash : List (String × String) → String → Option String
  | [], _ => none
  | ah :: rest, uid => if ah.1 = uid then some ah.2 else lookupAgentHash rest uid

/-- Go map write of the per-agent last-known-applied hash. -/
def updAgentHash (agents : List (String × String)) (uid hsh : String) :
    List (String × String) :=
  match agents with
  | [] => [(uid, hsh)]
  | ah :: rest => if ah.1 = uid then (uid, hsh) :: rest else ah :: updAgentHash rest uid hsh

/-- Modelled from the spec: the Protocol Server's state — the feature
history it consults via the Version/History Manager, and the last
known-applied hash per agent instance (§4.4). -/
structure ServerState where
  history : List DeploymentRecord
  agents : List (String × String)
deriving DecidableEq, Repr

/-- Modelled from the spec: the Protocol Server's synchronous handling of
one inbound message (§4.4) — forward an acknowledged hash to
`OnAcknowledgment` and record it as the hash the agent holds; compute the
latest desired bundle; send it unless the agent is already known to hold
its hash (a first-time connection has no recorded hash and is always
sent the latest bundle). -/
def processMessage (st : ServerState) (msg : InboundMessage) :
    ServerState × Option (CompiledBundle × String) :=
  let history1 :=
    match msg.ackAppliedHash with
    | some hsh => onAcknowledgment st.history hsh
    | none => st.history
  let agents1 :=
    match msg.ackAppliedHash with
    | some hsh => updAgentHash st.agents msg.instanceUid hsh
    | none => st.agents
  match history1 with
  | [] => ({ history := history1, agents := agents1 }, none)
  | r :: rest =>
    if lookupAgentHash agents1 msg.instanceUid = some r.version.hash then
      ({ history := r :: rest, agents := agents1 }, none)
    else
      ({ history := r :: rest, agents := agents1 },
       some (r.version.bundle, r.version.hash))

/-!
Concrete fixtures used by the witness theorems and the counterexample
below.  `cex...` is the instance refuting claim C10 as stated; `w...` and
`ex...` are inputs on which the hypotheses of the proved theorems are
discharged by evaluation.
-/

def cexL1 : Labels := [("x", "1"), ("y", "2")]

def cexL2 : Labels := [("x", "1"), ("y", "2"), ("z", "3")]

def cexResults : List Result :=
  [ { queryName := "A"
      series := [{ labels := cexL1, points := [{ timestamp := 0, value := 1 }] }] },
    { queryName := "B"
      series := [{ labels := cexL2, points := [{ timestamp := 0, value := 1 }] }] } ]

def cexExpr : EvaluableExpression :=
  { vars := ["A", "B"], evaluate := fun env => .ok (env "A" + env "B") }

def cexSeries : Series :=
  { labels := cexL2, points := [{ timestamp := 0, value := 2 }] }

def wLabels : Labels := [("x", "1")]

def wSeries : Series := { labels := wLabels, points := [{ timestamp := 1, value := 5 }, { timestamp := 2, value := 6 }] }

def wResults : List Result := [{ queryName := "A", series := [wSeries] }]

def wExpr : EvaluableExpression := { vars := ["A"], evaluate := fun env => .ok (env "A") }

def wRes : Result := { queryName := "", series := [wSeries] }

def w2Results : List Result :=
  [{ queryName := "A", series := [{ labels := wLabels, points := [{ timestamp := 0, value := 1 }] }] }]

def w2Expr : EvaluableExpression :=
  { vars := ["A", "B"], evaluate := fun env => .ok (env "A" + env "B") }

def opShift : HistoryOp → Nat
  | .create _ => 1
  | .ack _ => 0

def exFilter : FilterSet :=
  { operator := "AND"
    items := [{ keyName := "method", keyType := "tag", op := "=", value := "GET" }] }

def exOp1 : PipelineOperator :=
  { orderId := 1, id := "add", typ := "add", field := "attributes.test"
    value := "val", enabled := true, name := "test add", output := none }

def exPipeline1 : Pipeline :=
  { orderId := 1, name := "pipeline1", aliasName := "pipeline1", enabled := true
    filter := exFilter, config := [exOp1] }

def exPipeline2 : Pipeline :=
  { orderId := 2, name := "pipeline2", aliasName := "pipeline2", enabled := false
    filter := exFilter, config := [exOp1] }

def exBundle0 : CompiledBundle :=
  { processors := [], logsServiceProcessorNames := ["batch"] }

def exVersion1 : ConfigVersion :=
  { versionNumber := 1, hash := "h1", pipelines := [exPipeline1], bundle := exBundle0 }

def exVersion2 : ConfigVersion :=
  { versionNumber := 2, hash := "h2", pipelines := [exPipeline1], bundle := exBundle0 }

def exRecInitiated : DeploymentRecord := { version := exVersion1, status := .Initiated }

def exRecUnknown : DeploymentRecord := { version := exVersion1, status := .Unknown }

def exRecA : DeploymentRecord := { version := exVersion2, status := .Initiated }

def exServer : ServerState := { history := [exRecUnknown], agents := [] }

def exMsgNew : InboundMessage := { instanceUid := "agent-2", ackAppliedHash := none }

def exBadPipeline : Pipeline :=
  { orderId := 0, name := "pipeline1", aliasName := "pipeline1", enabled := true
    filter := exFilter, config := [exOp1] }

def exProcOut : PipelineProcessor :=
  { name := "logstransform/pipeline_pipeline1", routerRouteExpr := "tag.method == GET"
    operators := [exOp1] }

def exBundleOut : CompiledBundle :=
  { processors := [exProcOut]
    logsServiceProcessorNames := ["batch", "logstransform/pipeline_pipeline1"] }

def exVersionOut : ConfigVersion :=
  { versionNumber := 1, hash := "batch;logstransform/pipeline_pipeline1;tag.method == GET"
    pipelines := [exPipeline1], bundle := exBundleOut }

def exHistOut : List DeploymentRecord := [{ version := exVersionOut, status := .Initiated }]

/-!
Theorems.  Helper lemmas come first; each claim C1-C10 has exactly one
main theorem, named in its doc comment.
-/

theorem lookupLabel_eq_some_mem {ls : Labels} {k v : String}
    (h : lookupLabel ls k = some v) : (k, v) ∈ ls := by
  induction ls with
  | nil => simp [lookupLabel] at h
  | cons kv rest ih =>
    obtain ⟨a, b⟩ := kv
    by_cases hk : a = k
    · subst hk
      simp [lookupLabel] at h
      subst h
      exact List.mem_cons_self _ _
    · simp [lookupLabel, hk] at h
      exact List.mem_cons_of_mem _ (ih h)

theorem lookupLabel_mem_keys {ls : Labels} {k v : String}
    (h : lookupLabel ls k = some v) : k ∈ ls.map Prod.fst := by
  exact List.mem_map.mpr ⟨(k, v), lookupLabel_eq_some_mem h, rfl⟩

theorem mem_lookupLabel {ls : Labels} (hwf : WfLabels ls) {k v : String}
    (h : (k, v) ∈ ls) : lookupLabel ls k = some v := by
  induction ls with
  | nil => simp at h
  | cons kv rest ih =>
    rcases List.mem_cons.mp h with heq | hmem
    · subst heq
      simp [lookupLabel]
    · by_cases hk : kv.1 = k
      · exfalso
        have hkmem : k ∈ rest.map Prod.fst :=
          List.mem_map.mpr ⟨(k, v), hmem, rfl⟩
        have := (List.nodup_cons.mp hwf).1
        rw [hk] at this
        exact this hkmem
      · have hwf2 : WfLabels rest := (List.nodup_cons.mp hwf).2
        simp [lookupLabel, hk]
        exact ih hwf2 hmem

theorem isSubset_iff {super sub : Labels} :
    isSubset super sub = true ↔ SubsetOf sub super := by
  simp [isSubset, SubsetOf, List.all_eq_true]

theorem subsetOf_refl {ls : Labels} (hwf : WfLabels ls) : SubsetOf ls ls := by
  intro kv hkv
  exact mem_lookupLabel hwf (by exact hkv)

theorem SubsetOf.length_le {sub super : Labels} (hwf : WfLabels sub)
    (h : SubsetOf sub super) : sub.length ≤ super.length := by
  have hkeys : (sub.map Prod.fst) ⊆ (super.map Prod.fst) := by
    intro k hk
    rcases List.mem_map.mp hk with ⟨kv, hkv, hfst⟩
    subst hfst
    exact lookupLabel_mem_keys (h kv hkv)
  calc sub.length = (sub.map Prod.fst).length := (List.length_map _ _).symm
    _ = (sub.map Prod.fst).toFinset.card := (List.toFinset_card_of_nodup hwf).symm
    _ ≤ (super.map Prod.fst).toFinset.card := by
        apply Finset.card_le_card
        intro k hk
        exact List.mem_toFinset.mpr (hkeys (List.mem_toFinset.mp hk))
    _ ≤ (super.map Prod.fst).length := List.toFinset_card_le _
    _ = super.length := List.length_map _ _

theorem SubsetOf.symm_of_length_le {sub super : Labels}
    (hwfsub : WfLabels sub) (hwfsuper : WfLabels super)
    (h : SubsetOf sub super) (hlen : super.length ≤ sub.length) :
    SubsetOf super sub := by
  have hkeys : (sub.map Prod.fst).toFinset ⊆ (super.map Prod.fst).toFinset := by
    intro k hk
    rcases List.mem_map.mp (List.mem_toFinset.mp hk) with ⟨kv, hkv, hfst⟩
    subst hfst
    exact List.mem_toFinset.mpr (lookupLabel_mem_keys (h kv hkv))
  have hcard : (super.map Prod.fst).toFinset.card ≤ (sub.map Prod.fst).toFinset.card := by
    calc (super.map Prod.fst).toFinset.card = (super.map Prod.fst).length :=
          List.toFinset_card_of_nodup hwfsuper
      _ = super.length := List.length_map _ _
      _ ≤ sub.length := hlen
      _ = (sub.map Prod.fst).length := (List.length_map _ _).symm
      _ = (sub.map Prod.fst).toFinset.card := (List.toFinset_card_of_nodup hwfsub).symm
  have hset : (sub.map Prod.fst).toFinset = (super.map Prod.fst).toFinset :=
    Finset.eq_of_subset_of_card_le hkeys hcard
  intro kv hkv
  have hk : kv.1 ∈ (sub.map Prod.fst) := by
    have : kv.1 ∈ (super.map Prod.fst).toFinset :=
      List.mem_toFinset.mpr (List.mem_map.mpr ⟨kv, hkv, rfl⟩)
    rw [← hset] at this
    exact List.mem_toFinset.mp this
  rcases List.mem_map.mp hk with ⟨kv2, hkv2, hfst⟩
  have h1 : lookupLabel super kv2.1 = some kv2.2 := h kv2 hkv2
  have h2 : lookupLabel super kv.1 = some kv.2 := mem_lookupLabel hwfsuper hkv
  rw [hfst] at h1
  have hv : kv2.2 = kv.2 := by
    rw [h1] at h2
    exact Option.some.inj h2
  have h3 : lookupLabel sub kv2.1 = some kv2.2 := mem_lookupLabel hwfsub hkv2
  rw [hfst, hv] at h3
  exact h3

theorem insertUnique_pos {acc : List Labels} {z : Labels}
    (hc : (acc.any fun u => isSubset u z) = true) : insertUnique acc z = acc := by
  simp [insertUnique, hc]

theorem insertUnique_neg {acc : List Labels} {z : Labels}
    (hc : ¬ (acc.any fun u => isSubset u z) = true) :
    insertUnique acc z = acc ++ [z] := by
  simp only [insertUnique, if_neg hc]

theorem mem_insertUnique_of_mem {acc : List Labels} {z u : Labels}
    (h : u ∈ acc) : u ∈ insertUnique acc z := by
  by_cases hc : (acc.any fun w => isSubset w z) = true
  · rw [insertUnique_pos hc]
    exact h
  · rw [insertUnique_neg hc]
    exact List.mem_append_left _ h

theorem mem_of_mem_insertUnique {acc : List Labels} {z u : Labels}
    (h : u ∈ insertUnique acc z) : u ∈ acc ∨ u = z := by
  by_cases hc : (acc.any fun w => isSubset w z) = true
  · rw [insertUnique_pos hc] at h
    exact Or.inl h
  · rw [insertUnique_neg hc] at h
    rcases List.mem_append.mp h with h | h
    · exact Or.inl h
    · exact Or.inr (by simpa using h)

theorem foldl_insertUnique_invariant (L : List Labels) :
    ∀ acc : List Labels,
      (∀ u ∈ acc, WfLabels u) →
      (∀ x ∈ L, WfLabels x) →
      (∀ u ∈ acc, ∀ x ∈ L, x.length ≤ u.length) →
      L.Pairwise (fun a b => b.length ≤ a.length) →
      (∀ u ∈ acc, ∀ v ∈ acc, u ≠ v → ¬ SubsetOf u v ∧ ¬ SubsetOf v u) →
      (∀ u ∈ acc, u ∈ L.foldl insertUnique acc) ∧
      (∀ x ∈ L, ∃ u ∈ L.foldl insertUnique acc, SubsetOf x u) ∧
      (∀ u ∈ L.foldl insertUnique acc, ∀ v ∈ L.foldl insertUnique acc,
          u ≠ v → ¬ SubsetOf u v ∧ ¬ SubsetOf v u) ∧
      (∀ u ∈ L.foldl insertUnique acc, WfLabels u) := by
  induction L with
  | nil =>
    intro acc hwfacc _ _ _ hanti
    refine ⟨fun u hu => hu, by simp, hanti, hwfacc⟩
  | cons z rest ih =>
    intro acc hwfacc hwfL hlen hsorted hanti
    have hwfz : WfLabels z := hwfL z (List.mem_cons_self _ _)
    have hsorted2 : rest.Pairwise (fun a b => b.length ≤ a.length) :=
      (List.pairwise_cons.mp hsorted).2
    have hzrest : ∀ x ∈ rest, x.length ≤ z.length :=
      (List.pairwise_cons.mp hsorted).1
    have hfold : (z :: rest).foldl insertUnique acc
        = rest.foldl insertUnique (insertUnique acc z) := rfl
    have hwfacc2 : ∀ u ∈ insertUnique acc z, WfLabels u := by
      intro u hu
      rcases mem_of_mem_insertUnique hu with h | h
      · exact hwfacc u h
      · subst h
        exact hwfz
    have hwfL2 : ∀ x ∈ rest, WfLabels x := fun x hx => hwfL x (List.mem_cons_of_mem _ hx)
    have hlen2 : ∀ u ∈ insertUnique acc z, ∀ x ∈ rest, x.length ≤ u.length := by
      intro u hu x hx
      rcases mem_of_mem_insertUnique hu with h | h
      · exact hlen u h x (List.mem_cons_of_mem _ hx)
      · subst h
        exact hzrest x hx
    have hanti2 : ∀ u ∈ insertUnique acc z, ∀ v ∈ insertUnique acc z,
        u ≠ v → ¬ SubsetOf u v ∧ ¬ SubsetOf v u := by
      by_cases hc : (acc.any fun w => isSubset w z) = true
      · rw [insertUnique_pos hc]
        exact hanti
      · rw [insertUnique_neg hc]
        have hnosub : ∀ w ∈ acc, ¬ SubsetOf z w := by
          intro w hw hsub
          apply hc
          exact List.any_eq_true.mpr ⟨w, hw, isSubset_iff.mpr hsub⟩
        intro u hu v hv huv
        rcases List.mem_append.mp hu with hu | hu
        · rcases List.mem_append.mp hv with hv | hv
          · exact hanti u hu v hv huv
          · have hvz : v = z := by simpa using hv
            constructor
            · intro hsub
              have hle : z.length ≤ u.length := hlen u hu z (List.mem_cons_self _ _)
              have hsub2 : SubsetOf u z := hvz ▸ hsub
              exact hnosub u hu
                (SubsetOf.symm_of_length_le (hwfacc u hu) hwfz hsub2 hle)
            · intro hsub
              exact hnosub u hu (hvz ▸ hsub)
        · have huz : u = z := by simpa using hu
          rcases List.mem_append.mp hv with hv | hv
          · constructor
            · intro hsub
              exact hnosub v hv (huz ▸ hsub)
            · intro hsub
              have hle : z.length ≤ v.length := hlen v hv z (List.mem_cons_self _ _)
              have hsub2 : SubsetOf v z := huz ▸ hsub
              exact hnosub v hv
                (SubsetOf.symm_of_length_le (hwfacc v hv) hwfz hsub2 hle)
          · have hvz : v = z := by simpa using hv
            exact absurd (huz.trans hvz.symm) huv
    have main := ih (insertUnique acc z) hwfacc2 hwfL2 hlen2 hsorted2 hanti2
    rw [hfold]
    refine ⟨?_, ?_, main.2.2.1, main.2.2.2⟩
    · intro u hu
      exact main.1 u (mem_insertUnique_of_mem hu)
    · intro x hx
      rcases List.mem_cons.mp hx with hxz | hxr
      · subst hxz
        by_cases hc : (acc.any fun w => isSubset w x) = true
        · rcases List.any_eq_true.mp hc with ⟨w, hw, hsubw⟩
          exact ⟨w, main.1 w (mem_insertUnique_of_mem hw), isSubset_iff.mp hsubw⟩
        · refine ⟨x, ?_, subsetOf_refl hwfz⟩
          apply main.1
          rw [insertUnique_neg hc]
          exact List.mem_append_right _ (List.mem_singleton.mpr rfl)
      · exact main.2.1 x hxr

theorem labelSetsByLenDesc_pairwise (ls : List Labels) :
    (labelSetsByLenDesc ls).Pairwise (fun a b => b.length ≤ a.length) := by
  haveI : IsTotal Labels (fun a b : Labels => b.length ≤ a.length) :=
    ⟨fun a b => Nat.le_total b.length a.length⟩
  haveI : IsTrans Labels (fun a b : Labels => b.length ≤ a.length) :=
    ⟨fun _ _ _ hab hbc => le_trans hbc hab⟩
  exact List.sorted_insertionSort _ ls

/-- C8: every series label set occurring in the input is a subset of at
least one label set returned by `findUniqueLabelSets`, and no two distinct
returned label sets are in a subset relation with each other — the
returned sets form an antichain covering all input label sets.  The
`WfLabels` hypothesis records that Go map keys are distinct. -/
theorem findUniqueLabelSets_covers_antichain (results : List Result)
    (hwf : ∀ ls ∈ allLabelSets results, WfLabels ls) :
    (∀ ls ∈ allLabelSets results,
        ∃ u ∈ findUniqueLabelSets results, isSubset u ls = true) ∧
    (∀ u ∈ findUniqueLabelSets results, ∀ v ∈ findUniqueLabelSets results,
        u ≠ v → isSubset u v = false ∧ isSubset v u = false) := by
  have hinv := foldl_insertUnique_invariant (labelSetsByLenDesc (allLabelSets results)) []
    (by simp)
    (fun x hx => hwf x ((List.mem_insertionSort _).mp hx))
    (by simp)
    (labelSetsByLenDesc_pairwise _)
    (by simp)
  unfold findUniqueLabelSets
  constructor
  · intro ls hls
    rcases hinv.2.1 ls ((List.mem_insertionSort _).mpr hls) with ⟨u, hu, hsub⟩
    exact ⟨u, hu, isSubset_iff.mpr hsub⟩
  · intro u hu v hv huv
    have h := hinv.2.2.1 u hu v hv huv
    refine ⟨?_, ?_⟩
    · have hne : ¬ isSubset u v = true := fun hb => h.2 (isSubset_iff.mp hb)
      simpa using hne
    · have hne : ¬ isSubset v u = true := fun hb => h.1 (isSubset_iff.mp hb)
      simpa using hne

theorem evalPoints_ok_map_timestamp {expr : EvaluableExpression} {sm : SeriesMap} :
    ∀ {ts : List Int} {pts : List Point}, evalPoints expr sm ts = .ok pts →
      pts.map (·.timestamp) = ts := by
  intro ts
  induction ts with
  | nil =>
    intro pts h
    simp [evalPoints] at h
    simp [← h]
  | cons t rest ih =>
    intro pts h
    unfold evalPoints at h
    cases hv : expr.evaluate (envAt sm t) with
    | error e => rw [hv] at h; exact absurd h (by simp)
    | ok v =>
      rw [hv] at h
      cases hrec : evalPoints expr sm rest with
      | error e => rw [hrec] at h; exact absurd h (by simp)
      | ok pts2 =>
        rw [hrec] at h
        have hpts : pts = { timestamp := t, value := v } :: pts2 := by
          have := Except.ok.inj h
          exact this.symm
        subst hpts
        simp [ih hrec]

theorem sortedTimestamps_pairwise_lt (results : List Result) (ls : Labels) :
    (sortedTimestamps results ls).Pairwise (· < ·) := by
  have hnd : (sortedTimestamps results ls).Nodup := by
    unfold sortedTimestamps
    exact (List.perm_insertionSort _ _).symm.nodup
      (List.nodup_dedup _)
  have hle : (sortedTimestamps results ls).Pairwise (· ≤ ·) := by
    unfold sortedTimestamps
    exact List.sorted_insertionSort _ _
  exact (hle.and hnd).imp fun h => lt_of_le_of_ne h.1 h.2

theorem mem_sortedTimestamps {results : List Result} {ls : Labels} {t : Int} :
    t ∈ sortedTimestamps results ls ↔ t ∈ collectTimestamps results ls := by
  unfold sortedTimestamps
  rw [List.mem_insertionSort, List.mem_dedup]

theorem mem_collectTimestamps {results : List Result} {ls : Labels} {t : Int} :
    t ∈ collectTimestamps results ls ↔
      ∃ r ∈ results, ∃ ms, firstMatch ls r.series = some ms ∧
        t ∈ ms.points.map (·.timestamp) := by
  unfold collectTimestamps
  rw [List.mem_flatMap]
  constructor
  · rintro ⟨r, hr, ht⟩
    refine ⟨r, hr, ?_⟩
    cases hfm : firstMatch ls r.series with
    | none => rw [hfm] at ht; simp at ht
    | some ms =>
      rw [hfm] at ht
      exact ⟨ms, rfl, ht⟩
  · rintro ⟨r, hr, ms, hfm, ht⟩
    refine ⟨r, hr, ?_⟩
    rw [hfm]
    exact ht

theorem joinAndCalculate_ok_some {results : List Result} {ls : Labels}
    {expr : EvaluableExpression} {s : Series}
    (h : joinAndCalculate results ls expr = .ok (some s)) :
    s.labels = ls ∧ s.points.map (·.timestamp) = sortedTimestamps results ls := by
  unfold joinAndCalculate at h
  by_cases hvars : (expr.vars.any fun v => (lookupQ (buildSeriesMap results ls) v).isNone) = true
  · rw [if_pos hvars] at h
    exact absurd (Except.ok.inj h) (by simp)
  · rw [if_neg hvars] at h
    cases hep : evalPoints expr (buildSeriesMap results ls) (sortedTimestamps results ls) with
    | error e =>
      rw [hep] at h
      exact absurd h (by simp)
    | ok pts =>
      rw [hep] at h
      have hs : some { labels := ls, points := pts } = some s := Except.ok.inj h
      have hs2 : s = { labels := ls, points := pts } := (Option.some.inj hs).symm
      subst hs2
      exact ⟨rfl, evalPoints_ok_map_timestamp hep⟩

theorem lookupQ_updQ_ne {sm : SeriesMap} {q qv : String} {t v : Int}
    (hne : q ≠ qv) : lookupQ (updQ sm q t v) qv = lookupQ sm qv := by
  induction sm with
  | nil => simp [updQ, lookupQ, hne]
  | cons qm rest ih =>
    by_cases hq : qm.1 = q
    · simp [updQ, hq, lookupQ, hne]
    · simp [updQ, hq, lookupQ, ih]

theorem lookupQ_foldl_points {q qv : String} (hne : q ≠ qv) (pts : List Point) :
    ∀ sm : SeriesMap,
      lookupQ (pts.foldl (fun sm2 p => updQ sm2 q p.timestamp p.value) sm) qv =
        lookupQ sm qv := by
  induction pts with
  | nil => intro sm; rfl
  | cons p rest ih =>
    intro sm
    rw [List.foldl_cons, ih, lookupQ_updQ_ne hne]

theorem buildSeriesMap_foldl_none {ls : Labels} {qv : String} :
    ∀ (results : List Result) (sm : SeriesMap),
      (∀ r ∈ results, r.queryName = qv → firstMatch ls r.series = none) →
      lookupQ sm qv = none →
      lookupQ (results.foldl
        (fun sm r =>
          match firstMatch ls r.series with
          | none => sm
          | some s => s.points.foldl (fun sm2 p => updQ sm2 r.queryName p.timestamp p.value) sm)
        sm) qv = none := by
  intro results
  induction results with
  | nil => intro sm _ hsm; exact hsm
  | cons r rest ih =>
    intro sm hmiss hsm
    rw [List.foldl_cons]
    cases hfm : firstMatch ls r.series with
    | none =>
      simp only [hfm]
      exact ih sm (fun r2 hr2 => hmiss r2 (List.mem_cons_of_mem _ hr2)) hsm
    | some s =>
      simp only [hfm]
      have hne : r.queryName ≠ qv := by
        intro heq
        have := hmiss r (List.mem_cons_self _ _) heq
        rw [hfm] at this
        exact absurd this (by simp)
      apply ih _ (fun r2 hr2 => hmiss r2 (List.mem_cons_of_mem _ hr2))
      rw [lookupQ_foldl_points hne]
      exact hsm

theorem buildSeriesMap_lookupQ_none {results : List Result} {ls : Labels} {qv : String}
    (hmiss : ∀ r ∈ results, r.queryName = qv → firstMatch ls r.series = none) :
    lookupQ (buildSeriesMap results ls) qv = none := by
  unfold buildSeriesMap
  exact buildSeriesMap_foldl_none results [] hmiss rfl

theorem joinAndCalculate_missing_var_none {results : List Result} {ls : Labels}
    {expr : EvaluableExpression}
    (hmiss : ∃ qv ∈ expr.vars, ∀ r ∈ results, r.queryName = qv →
      firstMatch ls r.series = none) :
    joinAndCalculate results ls expr = .ok none := by
  rcases hmiss with ⟨qv, hqv, hnone⟩
  unfold joinAndCalculate
  have hvars : (expr.vars.any fun v => (lookupQ (buildSeriesMap results ls) v).isNone) = true := by
    refine List.any_eq_true.mpr ⟨qv, hqv, ?_⟩
    rw [buildSeriesMap_lookupQ_none hnone]
    rfl
  rw [if_pos hvars]

theorem seriesForLabelSets_ok_mem {results : List Result} {expr : EvaluableExpression} :
    ∀ {L : List Labels} {out : List Series},
      seriesForLabelSets results expr L = .ok out →
      ∀ s ∈ out, ∃ ls ∈ L, joinAndCalculate results ls expr = .ok (some s) := by
  intro L
  induction L with
  | nil =>
    intro out h s hs
    simp [seriesForLabelSets] at h
    subst h
    simp at hs
  | cons ls rest ih =>
    intro out h s hs
    unfold seriesForLabelSets at h
    cases hj : joinAndCalculate results ls expr with
    | error e =>
      rw [hj] at h
      exact absurd h (by simp)
    | ok os =>
      rw [hj] at h
      cases os with
      | none =>
        rcases ih h s hs with ⟨ls2, hls2, hj2⟩
        exact ⟨ls2, List.mem_cons_of_mem _ hls2, hj2⟩
      | some s0 =>
        cases hrec : seriesForLabelSets results expr rest with
        | error e =>
          rw [hrec] at h
          exact absurd h (by simp)
        | ok acc =>
          rw [hrec] at h
          have hout : out = s0 :: acc := (Except.ok.inj h).symm
          subst hout
          rcases List.mem_cons.mp hs with hs0 | hsacc
          · subst hs0
            exact ⟨ls, List.mem_cons_self _ _, hj⟩
          · rcases ih hrec s hsacc with ⟨ls2, hls2, hj2⟩
            exact ⟨ls2, List.mem_cons_of_mem _ hls2, hj2⟩

theorem processResults_ok_series {results : List Result} {expr : EvaluableExpression}
    {res : Result} (h : processResults results expr = .ok res) :
    seriesForLabelSets results expr (findUniqueLabelSets results) = .ok res.series := by
  unfold processResults at h
  cases hsl : seriesForLabelSets results expr (findUniqueLabelSets results) with
  | error e =>
    rw [hsl] at h
    exact absurd h (by simp)
  | ok out =>
    rw [hsl] at h
    have : { queryName := "", series := out : Result } = res := Except.ok.inj h
    rw [← this]

/-- C9: every result returned without error by `processResults` has, in
each of its series, points ordered by strictly increasing timestamp, with
exactly one point per distinct timestamp occurring in the joined input
series (the first subset-matching series of each query result). -/
theorem processResults_series_strictly_sorted (results : List Result)
    (expr : EvaluableExpression) (res : Result)
    (h : processResults results expr = .ok res) :
    ∀ s ∈ res.series,
      List.Pairwise (· < ·) (s.points.map (·.timestamp)) ∧
      ∀ t : Int, t ∈ s.points.map (·.timestamp) ↔
        ∃ r ∈ results, ∃ ms, firstMatch s.labels r.series = some ms ∧
          t ∈ ms.points.map (·.timestamp) := by
  intro s hs
  rcases seriesForLabelSets_ok_mem (processResults_ok_series h) s hs with ⟨ls, hls, hj⟩
  rcases joinAndCalculate_ok_some hj with ⟨hlab, hts⟩
  constructor
  · rw [hts]
    exact sortedTimestamps_pairwise_lt results ls
  · intro t
    rw [hts, mem_sortedTimestamps, mem_collectTimestamps, hlab]

/-- C10 (amended): for every unique label set for which some variable of
the expression has no matching series — no series in that query's result
whose labels are a subset of the label set (the claim as frozen said
"superset"; the concrete counterexample below refutes that reading) — `joinAndCalculate`
returns no series and no error, and `processResults` silently omits that
label set from the output. -/
theorem joinAndCalculate_unmatched_var_omitted (results : List Result) (ls : Labels)
    (expr : EvaluableExpression)
    (hls : ls ∈ findUniqueLabelSets results)
    (hmiss : ∃ qv ∈ expr.vars, ∀ r ∈ results, r.queryName = qv →
      firstMatch ls r.series = none) :
    joinAndCalculate results ls expr = .ok none ∧
    ∀ res, processResults results expr = .ok res → ∀ s ∈ res.series, s.labels ≠ ls := by
  have hnone := joinAndCalculate_missing_var_none hmiss
  refine ⟨hnone, ?_⟩
  intro res hres s hs heq
  rcases seriesForLabelSets_ok_mem (processResults_ok_series hres) s hs with ⟨ls2, hls2, hj⟩
  have hlab : s.labels = ls2 := (joinAndCalculate_ok_some hj).1
  have hls2eq : ls2 = ls := hlab ▸ heq
  rw [hls2eq, hnone] at hj
  exact absurd (Except.ok.inj hj) (by simp)

/-- C10 counterexample: query A owns a series labelled with keys x,y and
query B one labelled with keys x,y,z; the sole unique label set is the
larger one and query A has no series whose labels are a superset of it;
yet `joinAndCalculate` returns a series for it (both series match by the
subset rule the code actually uses) and `processResults` keeps it —
refuting C10 as stated. -/
theorem c10_counterexample :
    cexL2 ∈ findUniqueLabelSets cexResults ∧
    "A" ∈ cexExpr.vars ∧
    (∀ r ∈ cexResults, r.queryName = "A" →
      ∀ s ∈ r.series, isSubset s.labels cexL2 = false) ∧
    joinAndCalculate cexResults cexL2 cexExpr = .ok (some cexSeries) ∧
    processResults cexResults cexExpr = .ok { queryName := "", series := [cexSeries] } := by
  refine ⟨by decide, by decide, by decide, by rfl, by rfl⟩

theorem findUniqueLabelSets_covers_antichain_witness :
    (∀ ls ∈ allLabelSets wResults, WfLabels ls) ∧
    ((∀ ls ∈ allLabelSets wResults,
        ∃ u ∈ findUniqueLabelSets wResults, isSubset u ls = true) ∧
     (∀ u ∈ findUniqueLabelSets wResults, ∀ v ∈ findUniqueLabelSets wResults,
        u ≠ v → isSubset u v = false ∧ isSubset v u = false)) :=
  ⟨by decide, findUniqueLabelSets_covers_antichain wResults (by decide)⟩

theorem processResults_series_strictly_sorted_witness :
    processResults wResults wExpr = .ok wRes ∧
    ∀ s ∈ wRes.series,
      List.Pairwise (· < ·) (s.points.map (·.timestamp)) ∧
      ∀ t : Int, t ∈ s.points.map (·.timestamp) ↔
        ∃ r ∈ wResults, ∃ ms, firstMatch s.labels r.series = some ms ∧
          t ∈ ms.points.map (·.timestamp) :=
  ⟨by rfl, processResults_series_strictly_sorted wResults wExpr wRes (by rfl)⟩

theorem joinAndCalculate_unmatched_var_omitted_witness :
    (wLabels ∈ findUniqueLabelSets w2Results ∧
     ∃ qv ∈ w2Expr.vars, ∀ r ∈ w2Results, r.queryName = qv →
       firstMatch wLabels r.series = none) ∧
    (joinAndCalculate w2Results wLabels w2Expr = .ok none ∧
     ∀ res, processResults w2Results w2Expr = .ok res →
       ∀ s ∈ res.series, s.labels ≠ wLabels) :=
  ⟨⟨by decide, by decide⟩,
   joinAndCalculate_unmatched_var_omitted w2Results wLabels w2Expr (by decide) (by decide)⟩

theorem length_demoteInitiated (hist : List DeploymentRecord) :
    (demoteInitiated hist).length = hist.length := by
  cases hist with
  | nil => rfl
  | cons r t =>
    unfold demoteInitiated
    by_cases hr : r.status = .Initiated <;> simp [hr]

theorem length_onAcknowledgment (hist : List DeploymentRecord) (hsh : String) :
    (onAcknowledgment hist hsh).length = hist.length := by
  induction hist with
  | nil => rfl
  | cons r t ih =>
    unfold onAcknowledgment
    by_cases hr : r.version.hash = hsh <;> simp [hr, ih]

theorem tail_no_initiated_onAcknowledgment {t : List DeploymentRecord} {hsh : String}
    (h : ∀ r ∈ t, r.status ≠ .Initiated) :
    ∀ r ∈ onAcknowledgment t hsh, r.status ≠ .Initiated := by
  induction t with
  | nil => intro r hr; simp [onAcknowledgment] at hr
  | cons r1 t1 ih =>
    intro r hr
    unfold onAcknowledgment at hr
    by_cases h1 : r1.version.hash = hsh
    · rw [if_pos h1] at hr
      rcases List.mem_cons.mp hr with heq | hmem
      · by_cases hinit : r1.status = .Initiated
        · rw [if_pos hinit] at heq
          rw [heq]
          simp
        · rw [if_neg hinit] at heq
          rw [heq]
          exact h r1 (List.mem_cons_self _ _)
      · exact h r (List.mem_cons_of_mem _ hmem)
    · rw [if_neg h1] at hr
      rcases List.mem_cons.mp hr with heq | hmem
      · rw [heq]
        exact h r1 (List.mem_cons_self _ _)
      · exact ih (fun r2 hr2 => h r2 (List.mem_cons_of_mem _ hr2)) r hmem

theorem tail_no_initiated_demote {hist : List DeploymentRecord}
    (h : ∀ r ∈ hist.tail, r.status ≠ .Initiated) :
    ∀ r ∈ demoteInitiated hist, r.status ≠ .Initiated := by
  cases hist with
  | nil => intro r hr; simp [demoteInitiated] at hr
  | cons r0 t =>
    intro r hr
    rw [show demoteInitiated (r0 :: t)
        = if r0.status = .Initiated then { r0 with status := .Unknown } :: t
          else r0 :: t from rfl] at hr
    by_cases h0 : r0.status = .Initiated
    · rw [if_pos h0] at hr
      rcases List.mem_cons.mp hr with heq | hmem
      · rw [heq]; simp
      · exact h r hmem
    · rw [if_neg h0] at hr
      rcases List.mem_cons.mp hr with heq | hmem
      · rw [heq]; exact h0
      · exact h r hmem

theorem tail_no_initiated_onAck_full {hist : List DeploymentRecord}
    (h : ∀ r ∈ hist.tail, r.status ≠ .Initiated) (hsh : String) :
    ∀ r ∈ (onAcknowledgment hist hsh).tail, r.status ≠ .Initiated := by
  cases hist with
  | nil => intro r hr; simp [onAcknowledgment] at hr
  | cons r0 t =>
    rw [show onAcknowledgment (r0 :: t) hsh
        = if r0.version.hash = hsh then
            (if r0.status = .Initiated then { r0 with status := .Deployed } else r0) :: t
          else r0 :: onAcknowledgment t hsh from rfl]
    by_cases h1 : r0.version.hash = hsh
    · rw [if_pos h1]
      intro r hr
      exact h r hr
    · rw [if_neg h1]
      intro r hr
      exact tail_no_initiated_onAcknowledgment h r hr

theorem reachable_tail_no_initiated {hist : List DeploymentRecord} (hr : Reachable hist) :
    ∀ r ∈ hist.tail, r.status ≠ .Initiated := by
  induction hr with
  | init => intro r h; simp at h
  | create v hprev ih => exact fun r hm => tail_no_initiated_demote ih r hm
  | ack hsh hprev ih => exact fun r hm => tail_no_initiated_onAck_full ih hsh r hm

/-- C1: in every reachable state of the history, at most one record has
status Initiated and when one exists it is `history[0]` — stated as: a
record with status Initiated can only sit at index 0.  `createVersion` and
`onAcknowledgment` preserve this by the reachability induction, and
`getLatest` is a pure read returning the history unchanged. -/
theorem reachable_initiated_only_at_head (hist : List DeploymentRecord)
    (hr : Reachable hist) :
    (∀ i (hi : i < hist.length),
        (hist.get ⟨i, hi⟩).status = .Initiated → i = 0) ∧
    (getLatest { history := hist }).2 = hist := by
  refine ⟨?_, rfl⟩
  intro i hi hstat
  cases i with
  | zero => rfl
  | succ j =>
    exfalso
    cases hist with
    | nil => simp at hi
    | cons r0 t =>
      have hmem : (r0 :: t).get ⟨j + 1, hi⟩ ∈ t :=
        List.get_mem t j (by simpa using hi)
      exact reachable_tail_no_initiated hr _ hmem hstat

theorem getCongr {α : Type} {l l2 : List α} (h : l = l2) {i : Nat}
    (hi : i < l.length) : l.get ⟨i, hi⟩ = l2.get ⟨i, h ▸ hi⟩ := by
  cases h
  rfl

theorem demoteInitiated_get_of_ne (hist : List DeploymentRecord) (i : Nat)
    (hi : i < hist.length) (hne : (hist.get ⟨i, hi⟩).status ≠ .Initiated) :
    ∃ hi2 : i < (demoteInitiated hist).length,
      (demoteInitiated hist).get ⟨i, hi2⟩ = hist.get ⟨i, hi⟩ := by
  have hlen : (demoteInitiated hist).length = hist.length := length_demoteInitiated hist
  refine ⟨by rw [hlen]; exact hi, ?_⟩
  cases hist with
  | nil => simp at hi
  | cons r0 t =>
    have hstruct : demoteInitiated (r0 :: t)
        = (if r0.status = .Initiated then { r0 with status := .Unknown } else r0) :: t := by
      by_cases h0 : r0.status = .Initiated <;> simp [demoteInitiated, h0]
    cases i with
    | zero =>
      have h0 : r0.status ≠ .Initiated := hne
      rw [getCongr hstruct _]
      show (if r0.status = .Initiated then { r0 with status := .Unknown } else r0) = r0
      exact if_neg h0
    | succ j =>
      exact getCongr hstruct _

theorem onAcknowledgment_get_of_not_initiated (hist : List DeploymentRecord)
    (hsh : String) :
    ∀ (i : Nat) (hi : i < hist.length),
      (hist.get ⟨i, hi⟩).status ≠ .Initiated →
      ∃ hi2 : i < (onAcknowledgment hist hsh).length,
        (onAcknowledgment hist hsh).get ⟨i, hi2⟩ = hist.get ⟨i, hi⟩ := by
  induction hist with
  | nil => intro i hi; simp at hi
  | cons r0 t ih =>
    intro i hi hne
    have hlen : (onAcknowledgment (r0 :: t) hsh).length = (r0 :: t).length :=
      length_onAcknowledgment _ _
    refine ⟨by rw [hlen]; exact hi, ?_⟩
    by_cases h1 : r0.version.hash = hsh
    · have hstruct : onAcknowledgment (r0 :: t) hsh
          = (if r0.status = .Initiated then { r0 with status := .Deployed } else r0) :: t := by
        simp [onAcknowledgment, h1]
      cases i with
      | zero =>
        have h0 : r0.status ≠ .Initiated := hne
        rw [getCongr hstruct _]
        show (if r0.status = .Initiated then { r0 with status := .Deployed } else r0) = r0
        exact if_neg h0
      | succ j =>
        exact getCongr hstruct _
    · have hstruct : onAcknowledgment (r0 :: t) hsh = r0 :: onAcknowledgment t hsh := by
        simp [onAcknowledgment, h1]
      cases i with
      | zero =>
        exact getCongr hstruct _
      | succ j =>
        have hj : j < t.length := by simpa using hi
        have hne2 : (t.get ⟨j, hj⟩).status ≠ .Initiated := hne
        rcases ih j hj hne2 with ⟨hj2, heq⟩
        exact (getCongr hstruct _).trans heq

theorem applyOp_preserves_unknown (hist : List DeploymentRecord) (op : HistoryOp)
    (i : Nat) (hi : i < hist.length)
    (hu : (hist.get ⟨i, hi⟩).status = .Unknown) :
    ∃ hj : i + opShift op < (applyOp hist op).length,
      (applyOp hist op).get ⟨i + opShift op, hj⟩ = hist.get ⟨i, hi⟩ := by
  cases op with
  | create v =>
    have hne : (hist.get ⟨i, hi⟩).status ≠ .Initiated := by
      rw [hu]; simp
    rcases demoteInitiated_get_of_ne hist i hi hne with ⟨hi2, heq⟩
    have hj : i + 1 < (createVersion hist v).length := by
      simp [createVersion, length_demoteInitiated]
      omega
    exact ⟨hj, heq⟩
  | ack hsh =>
    have hne : (hist.get ⟨i, hi⟩).status ≠ .Initiated := by
      rw [hu]; simp
    rcases onAcknowledgment_get_of_not_initiated hist hsh i hi hne with ⟨hi2, heq⟩
    exact ⟨hi2, heq⟩

theorem applyOps_preserves_unknown (ops : List HistoryOp) :
    ∀ (hist : List DeploymentRecord) (i : Nat) (hi : i < hist.length),
      (hist.get ⟨i, hi⟩).status = .Unknown →
      ∃ hj : i + countCreates ops < (applyOps hist ops).length,
        (applyOps hist ops).get ⟨i + countCreates ops, hj⟩ = hist.get ⟨i, hi⟩ := by
  induction ops with
  | nil =>
    intro hist i hi hu
    refine ⟨by simpa [applyOps, countCreates] using hi, ?_⟩
    simp [applyOps, countCreates]
  | cons op rest ih =>
    intro hist i hi hu
    rcases applyOp_preserves_unknown hist op i hi hu with ⟨hj1, heq1⟩
    have hu2 : ((applyOp hist op).get ⟨i + opShift op, hj1⟩).status = .Unknown := by
      rw [heq1]; exact hu
    rcases ih (applyOp hist op) (i + opShift op) hj1 hu2 with ⟨hj2, heq2⟩
    have hidx : i + opShift op + countCreates rest = i + countCreates (op :: rest) := by
      cases op <;> simp [opShift, countCreates] <;> omega
    exact hidx ▸ ⟨hj2, heq2.trans heq1⟩

/-- C2: a version superseded while still Initiated becomes Unknown (it
sits at index 1 of the new history with status Unknown) and stays exactly
that record under every further operation sequence — in particular it
never becomes Deployed, even when `onAcknowledgment` is later applied with
its own hash.  Unknown is terminal. -/
theorem superseded_version_never_deployed (r : DeploymentRecord)
    (rest : List DeploymentRecord) (v : ConfigVersion)
    (hInit : r.status = .Initiated) (ops : List HistoryOp) :
    ∃ hj : 1 + countCreates ops <
        (applyOps (createVersion (r :: rest) v) ops).length,
      (applyOps (createVersion (r :: rest) v) ops).get
          ⟨1 + countCreates ops, hj⟩ = { r with status := .Unknown } := by
  have hstruct : createVersion (r :: rest) v
      = { version := v, status := .Initiated }
        :: { r with status := .Unknown } :: rest := by
    simp [createVersion, demoteInitiated, hInit]
  have h1 : (1 : Nat) < (createVersion (r :: rest) v).length := by
    rw [hstruct]
    simp
  have hget : (createVersion (r :: rest) v).get ⟨1, h1⟩
      = { r with status := .Unknown } :=
    getCongr hstruct h1
  have hu : ((createVersion (r :: rest) v).get ⟨1, h1⟩).status = .Unknown := by
    rw [hget]
  rcases applyOps_preserves_unknown ops (createVersion (r :: rest) v) 1 h1 hu with ⟨hj, heq⟩
  exact ⟨hj, heq.trans hget⟩

theorem onAcknowledgment_no_match {hist : List DeploymentRecord} {hsh : String}
    (h : ∀ r ∈ hist, r.version.hash ≠ hsh) :
    onAcknowledgment hist hsh = hist := by
  induction hist with
  | nil => rfl
  | cons r t ih =>
    have hr : r.version.hash ≠ hsh := h r (List.mem_cons_self _ _)
    have ht := ih fun x hx => h x (List.mem_cons_of_mem _ hx)
    simp [onAcknowledgment, hr, ht]

theorem onAcknowledgment_first_match {hsh : String} :
    ∀ (pre : List DeploymentRecord) (dr : DeploymentRecord)
      (suf : List DeploymentRecord),
      (∀ r ∈ pre, r.version.hash ≠ hsh) → dr.version.hash = hsh →
      onAcknowledgment (pre ++ dr :: suf) hsh =
        pre ++ (if dr.status = .Initiated then { dr with status := .Deployed }
                else dr) :: suf := by
  intro pre
  induction pre with
  | nil =>
    intro dr suf _ hdr
    simp [onAcknowledgment, hdr]
  | cons p pre2 ih =>
    intro dr suf hpre hdr
    have hp : p.version.hash ≠ hsh := hpre p (List.mem_cons_self _ _)
    have ht := ih dr suf (fun x hx => hpre x (List.mem_cons_of_mem _ hx)) hdr
    simp only [List.cons_append]
    rw [show onAcknowledgment (p :: (pre2 ++ dr :: suf)) hsh
        = if p.version.hash = hsh then
            (if p.status = .Initiated then { p with status := .Deployed } else p)
              :: (pre2 ++ dr :: suf)
          else p :: onAcknowledgment (pre2 ++ dr :: suf) hsh from rfl]
    rw [if_neg hp, ht]

/-- C3: `onAcknowledgment hash` marks the record whose hash matches as
Deployed if that record is currently Initiated; when no record matches, it
is a no-op that leaves the history unchanged, and it never returns an
error (the operation is total by construction). -/
theorem onAcknowledgment_spec (hist : List DeploymentRecord) (hsh : String) :
    ((∀ r ∈ hist, r.version.hash ≠ hsh) → onAcknowledgment hist hsh = hist) ∧
    (∀ (pre : List DeploymentRecord) (dr : DeploymentRecord)
        (suf : List DeploymentRecord),
      hist = pre ++ dr :: suf →
      (∀ r ∈ pre, r.version.hash ≠ hsh) → dr.version.hash = hsh →
      onAcknowledgment hist hsh =
        pre ++ (if dr.status = .Initiated then { dr with status := .Deployed }
                else dr) :: suf) := by
  constructor
  · exact onAcknowledgment_no_match
  · intro pre dr suf hsplit hpre hdr
    rw [hsplit]
    exact onAcknowledgment_first_match pre dr suf hpre hdr

/-- C4: an agent connection seen for the first time (no recorded hash,
having only reported its effective configuration) is unconditionally sent
the current latest compiled bundle — the history is universally
quantified, so this holds whatever the latest version's deployment status
(Initiated, Deployed or Unknown) is. -/
theorem new_connection_receives_latest (st : ServerState) (msg : InboundMessage)
    (hnew : lookupAgentHash st.agents msg.instanceUid = none)
    (hnoack : msg.ackAppliedHash = none)
    (dr : DeploymentRecord) (rest : List DeploymentRecord)
    (hh : st.history = dr :: rest) :
    (processMessage st msg).2 = some (dr.version.bundle, dr.version.hash) := by
  unfold processMessage
  rw [hnoack, hh]
  simp [hnew]

theorem validate_ok_parts {ps : List Pipeline}
    (h : validatePipelines ps = .ok ()) :
    (∀ p ∈ ps, pipelineValid p = true) ∧ (ps.map (·.orderId)).Nodup := by
  unfold validatePipelines at h
  by_cases hc : (ps.all pipelineValid && decide (ps.map (·.orderId)).Nodup) = true
  · rcases Bool.and_eq_true_iff.mp hc with ⟨h1, h2⟩
    exact ⟨fun p hp => List.all_eq_true.mp h1 p hp, of_decide_eq_true h2⟩
  · rw [if_neg hc] at h
    exact absurd h (by simp)

theorem compileFilter_ok_of_valid {p : Pipeline}
    (hp : pipelineValid p = true) :
    ∃ e, compileFilter p.filter = .ok e := by
  unfold pipelineValid at hp
  rcases Bool.and_eq_true_iff.mp hp with ⟨hp1, _⟩
  rcases Bool.and_eq_true_iff.mp hp1 with ⟨hp2, hcomb⟩
  rcases Bool.and_eq_true_iff.mp hp2 with ⟨_, hne⟩
  have hempty : p.filter.items.isEmpty = false := by
    cases he : p.filter.items.isEmpty
    · rfl
    · rw [he] at hne
      exact absurd hne (by simp)
  rcases Option.isSome_iff_exists.mp hcomb with ⟨j, hj⟩
  refine ⟨String.intercalate j (p.filter.items.map compileFilterItem), ?_⟩
  unfold compileFilter
  rw [if_neg (by simp [hempty]), hj]

theorem buildProcessors_ok :
    ∀ l : List Pipeline, (∀ p ∈ l, pipelineValid p = true) →
      ∃ procs, buildProcessors l = .ok procs ∧ procs.length = l.length ∧
        ∀ i (hi : i < procs.length) (hi2 : i < l.length),
          (procs.get ⟨i, hi⟩).name = collectorConfProcessorName (l.get ⟨i, hi2⟩) ∧
          compileFilter (l.get ⟨i, hi2⟩).filter =
            .ok (procs.get ⟨i, hi⟩).routerRouteExpr := by
  intro l
  induction l with
  | nil =>
    intro _
    exact ⟨[], rfl, rfl, fun i hi _ => absurd hi (by simp)⟩
  | cons p t ih =>
    intro h
    rcases compileFilter_ok_of_valid (h p (List.mem_cons_self _ _)) with ⟨e, he⟩
    rcases ih (fun q hq => h q (List.mem_cons_of_mem _ hq)) with ⟨procs, hbp, hlen, hpt⟩
    refine ⟨{ name := collectorConfProcessorName p
              routerRouteExpr := e
              operators := p.config.insertionSort fun a b => a.orderId ≤ b.orderId }
            :: procs, ?_, by simp [hlen], ?_⟩
    · rw [show buildProcessors (p :: t)
          = match buildProcessor p with
            | .error e2 => .error e2
            | .ok proc =>
              match buildProcessors t with
              | .error e2 => .error e2
              | .ok procs2 => .ok (proc :: procs2) from rfl]
      rw [show buildProcessor p
          = match compileFilter p.filter with
            | .error e2 => .error e2
            | .ok expr =>
              .ok { name := collectorConfProcessorName p
                    routerRouteExpr := expr
                    operators := p.config.insertionSort fun a b => a.orderId ≤ b.orderId } from rfl]
      rw [he, hbp]
    · intro i hi hi2
      cases i with
      | zero => exact ⟨rfl, he⟩
      | succ j =>
        exact hpt j (by simpa using hi) (by simpa using hi2)

theorem enabledPipelinesInOrder_sorted (ps : List Pipeline)
    (hnd : (ps.map (·.orderId)).Nodup) :
    (enabledPipelinesInOrder ps).Pairwise (fun a b => a.orderId < b.orderId) := by
  have hle : (pipelinesSortedByOrder ps).Pairwise (fun a b => a.orderId ≤ b.orderId) := by
    haveI : IsTotal Pipeline (fun a b : Pipeline => a.orderId ≤ b.orderId) :=
      ⟨fun a b => Nat.le_total _ _⟩
    haveI : IsTrans Pipeline (fun a b : Pipeline => a.orderId ≤ b.orderId) :=
      ⟨fun _ _ _ => Nat.le_trans⟩
    exact List.sorted_insertionSort _ _
  have hndsorted : ((pipelinesSortedByOrder ps).map (·.orderId)).Nodup := by
    have hperm : List.Perm (ps.map (fun q => q.orderId))
        ((pipelinesSortedByOrder ps).map (fun q => q.orderId)) :=
      (List.Perm.map (fun q => q.orderId) (List.perm_insertionSort _ ps)).symm
    exact hperm.nodup hnd
  have hlef : (enabledPipelinesInOrder ps).Pairwise (fun a b => a.orderId ≤ b.orderId) := by
    unfold enabledPipelinesInOrder
    exact List.Pairwise.filter _ hle
  have hndf : ((enabledPipelinesInOrder ps).map (·.orderId)).Nodup := by
    have hsub : (enabledPipelinesInOrder ps).Sublist (pipelinesSortedByOrder ps) := by
      unfold enabledPipelinesInOrder
      exact List.filter_sublist _
    exact (hsub.map (fun q => q.orderId)).nodup hndsorted
  have hnef : (enabledPipelinesInOrder ps).Pairwise (fun a b => a.orderId ≠ b.orderId) := by
    rw [List.Nodup, List.pairwise_map] at hndf
    exact hndf
  exact (hlef.and hnef).imp fun h => Nat.lt_of_le_of_ne h.1 h.2

/-- C5: for every validated pipeline list the compiler produces exactly
one named processor per enabled pipeline, in ascending OrderId, whose
operator chain begins with a routing stage whose single route condition is
the compiled filter expression of that pipeline; disabled pipelines
produce no processor and do not appear in the returned processor-name
list, while still being retained in the stored and returned state. -/
theorem pipeline_compiler_one_processor_per_enabled (ps : List Pipeline)
    (hval : validatePipelines ps = .ok ()) :
    ∃ procs : List PipelineProcessor,
      preparePipelineProcessor ps = .ok (procs, procs.map (·.name)) ∧
      procs.length = (enabledPipelinesInOrder ps).length ∧
      (∀ p ∈ ps, p ∈ enabledPipelinesInOrder ps ↔ p.enabled = true) ∧
      (enabledPipelinesInOrder ps).Pairwise (fun a b => a.orderId < b.orderId) ∧
      (∀ i (hi : i < procs.length) (hi2 : i < (enabledPipelinesInOrder ps).length),
          (procs.get ⟨i, hi⟩).name =
            collectorConfProcessorName ((enabledPipelinesInOrder ps).get ⟨i, hi2⟩) ∧
          compileFilter ((enabledPipelinesInOrder ps).get ⟨i, hi2⟩).filter =
            .ok (procs.get ⟨i, hi⟩).routerRouteExpr) ∧
      (∀ st : AppState, ∃ st2 hist,
          handleSubmission st ps = (st2, .ok ps hist) ∧ (getLatest st2).1 = ps) := by
  rcases validate_ok_parts hval with ⟨hall, hnd⟩
  have hallen : ∀ p ∈ enabledPipelinesInOrder ps, pipelineValid p = true := by
    intro p hp
    have hp2 : p ∈ pipelinesSortedByOrder ps := (List.mem_filter.mp hp).1
    exact hall p ((List.mem_insertionSort _).mp hp2)
  rcases buildProcessors_ok _ hallen with ⟨procs, hbp, hlen, hpt⟩
  have hprep : preparePipelineProcessor ps = .ok (procs, procs.map (·.name)) := by
    unfold preparePipelineProcessor
    rw [hbp]
  refine ⟨procs, hprep, hlen, ?_, enabledPipelinesInOrder_sorted ps hnd, hpt, ?_⟩
  · intro p hp
    simp [enabledPipelinesInOrder, pipelinesSortedByOrder, List.mem_filter,
      List.mem_insertionSort, hp]
  · intro st
    refine ⟨AppState.mk (createVersion st.history
        ⟨st.history.length + 1,
         hashBundle ⟨procs, baseLogsProcessors ++ procs.map (·.name)⟩, ps,
         ⟨procs, baseLogsProcessors ++ procs.map (·.name)⟩⟩),
      createVersion st.history
        ⟨st.history.length + 1,
         hashBundle ⟨procs, baseLogsProcessors ++ procs.map (·.name)⟩, ps,
         ⟨procs, baseLogsProcessors ++ procs.map (·.name)⟩⟩, ?_, rfl⟩
    unfold handleSubmission
    rw [hval, hprep]

theorem all_eq_false_of_mem {α : Type} {l : List α} {p : α → Bool} {x : α}
    (hx : x ∈ l) (hpx : p x = false) : l.all p = false := by
  cases hall : l.all p
  · rfl
  · exfalso
    have := List.all_eq_true.mp hall x hx
    rw [hpx] at this
    exact absurd this (by simp)

/-- C6: every submission containing a pipeline with OrderId 0, or a
pipeline whose filter has an empty item list, or an operator whose field
resolves outside the allowed attribute namespaces, is answered with a
400-equivalent validation outcome and no state is mutated: the returned
state is the input state, so no ConfigVersion or history entry is
created. -/
theorem invalid_submission_rejected (st : AppState) (ps : List Pipeline)
    (hbad : (∃ p ∈ ps, p.orderId = 0) ∨ (∃ p ∈ ps, p.filter.items = []) ∨
            (∃ p ∈ ps, ∃ op ∈ p.config, allowedOperatorField op.field = false)) :
    ∃ reason, handleSubmission st ps = (st, .badRequest reason) := by
  have hallfalse : ps.all pipelineValid = false := by
    rcases hbad with ⟨p, hp, h0⟩ | ⟨p, hp, h0⟩ | ⟨p, hp, op, hop, h0⟩
    · apply all_eq_false_of_mem hp
      simp [pipelineValid, h0]
    · apply all_eq_false_of_mem hp
      simp [pipelineValid, h0]
    · apply all_eq_false_of_mem hp
      have hops : operatorsValid p.config = false := by
        have hinner : p.config.all
            (fun op => decide (0 < op.orderId) && allowedOperatorField op.field) = false := by
          apply all_eq_false_of_mem hop
          simp [h0]
        simp [operatorsValid, hinner]
      simp [pipelineValid, hops]
  have hval : validatePipelines ps = .error "invalid pipelines submission" := by
    simp [validatePipelines, hallfalse]
  exact ⟨"invalid pipelines submission", by simp [handleSubmission, hval]⟩

/-- C7: round-trip — for every successful submission, the Name, OrderId,
Enabled and Config fields returned by the create response and by the
subsequent read surface equal, element by element in order, those of the
submitted pipelines. -/
theorem submission_round_trip (st : AppState) (ps : List Pipeline)
    (st2 : AppState) (pls : List Pipeline) (hist : List DeploymentRecord)
    (hok : handleSubmission st ps = (st2, .ok pls hist)) :
    pls.map (fun p => (p.name, p.orderId, p.enabled, p.config)) =
      ps.map (fun p => (p.name, p.orderId, p.enabled, p.config)) ∧
    (getLatest st2).1.map (fun p => (p.name, p.orderId, p.enabled, p.config)) =
      ps.map (fun p => (p.name, p.orderId, p.enabled, p.config)) := by
  unfold handleSubmission at hok
  cases hv : validatePipelines ps with
  | error e =>
    rw [hv] at hok
    simp at hok
  | ok u =>
    cases u
    rw [hv] at hok
    cases hp : preparePipelineProcessor ps with
    | error e =>
      rw [hp] at hok
      simp at hok
    | ok pr =>
      obtain ⟨procs, names⟩ := pr
      rw [hp] at hok
      have h1 : AppState.mk (createVersion st.history
          ⟨st.history.length + 1,
           hashBundle ⟨procs, baseLogsProcessors ++ names⟩, ps,
           ⟨procs, baseLogsProcessors ++ names⟩⟩) = st2 :=
        congrArg Prod.fst hok
      have h2 : SubmitOutcome.ok ps (createVersion st.history
          ⟨st.history.length + 1,
           hashBundle ⟨procs, baseLogsProcessors ++ names⟩, ps,
           ⟨procs, baseLogsProcessors ++ names⟩⟩) = SubmitOutcome.ok pls hist :=
        congrArg Prod.snd hok
      injection h2 with hpls hhist
      refine ⟨by rw [← hpls], ?_⟩
      rw [← h1]
      rfl

theorem reachable_initiated_only_at_head_witness :
    Reachable (createVersion [] exVersion1) ∧
    ((∀ i (hi : i < (createVersion [] exVersion1).length),
        ((createVersion [] exVersion1).get ⟨i, hi⟩).status = .Initiated → i = 0) ∧
     (getLatest { history := createVersion [] exVersion1 }).2 = createVersion [] exVersion1) :=
  ⟨Reachable.create exVersion1 Reachable.init,
   reachable_initiated_only_at_head _ (Reachable.create exVersion1 Reachable.init)⟩

theorem superseded_version_never_deployed_witness :
    exRecInitiated.status = .Initiated ∧
    ∃ hj : 1 + countCreates [HistoryOp.ack "h1"] <
        (applyOps (createVersion [exRecInitiated] exVersion2) [HistoryOp.ack "h1"]).length,
      (applyOps (createVersion [exRecInitiated] exVersion2) [HistoryOp.ack "h1"]).get
          ⟨1 + countCreates [HistoryOp.ack "h1"], hj⟩ =
        { exRecInitiated with status := .Unknown } :=
  ⟨rfl, superseded_version_never_deployed exRecInitiated [] exVersion2 rfl [HistoryOp.ack "h1"]⟩

theorem onAcknowledgment_spec_witness :
    ([exRecA, exRecInitiated] : List DeploymentRecord) = [exRecA] ++ exRecInitiated :: [] ∧
    (∀ r ∈ ([exRecA] : List DeploymentRecord), r.version.hash ≠ "h1") ∧
    exRecInitiated.version.hash = "h1" ∧
    onAcknowledgment [exRecA, exRecInitiated] "h1" =
      [exRecA] ++ (if exRecInitiated.status = .Initiated
                   then { exRecInitiated with status := .Deployed }
                   else exRecInitiated) :: [] :=
  ⟨rfl, by decide, rfl,
   (onAcknowledgment_spec [exRecA, exRecInitiated] "h1").2
     [exRecA] exRecInitiated [] rfl (by decide) rfl⟩

theorem new_connection_receives_latest_witness :
    lookupAgentHash exServer.agents exMsgNew.instanceUid = none ∧
    exMsgNew.ackAppliedHash = none ∧
    exServer.history = exRecUnknown :: [] ∧
    (processMessage exServer exMsgNew).2 =
      some (exRecUnknown.version.bundle, exRecUnknown.version.hash) :=
  ⟨rfl, rfl, rfl,
   new_connection_receives_latest exServer exMsgNew rfl rfl exRecUnknown [] rfl⟩

theorem pipeline_compiler_one_processor_per_enabled_witness :
    validatePipelines [exPipeline1, exPipeline2] = .ok () ∧
    ∃ procs : List PipelineProcessor,
      preparePipelineProcessor [exPipeline1, exPipeline2] = .ok (procs, procs.map (·.name)) ∧
      procs.length = (enabledPipelinesInOrder [exPipeline1, exPipeline2]).length ∧
      (∀ p ∈ [exPipeline1, exPipeline2],
        p ∈ enabledPipelinesInOrder [exPipeline1, exPipeline2] ↔ p.enabled = true) ∧
      (enabledPipelinesInOrder [exPipeline1, exPipeline2]).Pairwise
        (fun a b => a.orderId < b.orderId) ∧
      (∀ i (hi : i < procs.length)
          (hi2 : i < (enabledPipelinesInOrder [exPipeline1, exPipeline2]).length),
          (procs.get ⟨i, hi⟩).name =
            collectorConfProcessorName
              ((enabledPipelinesInOrder [exPipeline1, exPipeline2]).get ⟨i, hi2⟩) ∧
          compileFilter
              ((enabledPipelinesInOrder [exPipeline1, exPipeline2]).get ⟨i, hi2⟩).filter =
            .ok (procs.get ⟨i, hi⟩).routerRouteExpr) ∧
      (∀ st : AppState, ∃ st2 hist,
          handleSubmission st [exPipeline1, exPipeline2] = (st2, .ok [exPipeline1, exPipeline2] hist) ∧
          (getLatest st2).1 = [exPipeline1, exPipeline2]) :=
  ⟨by rfl,
   pipeline_compiler_one_processor_per_enabled [exPipeline1, exPipeline2] (by rfl)⟩

theorem invalid_submission_rejected_witness :
    ((∃ p ∈ ([exBadPipeline] : List Pipeline), p.orderId = 0) ∨
     (∃ p ∈ ([exBadPipeline] : List Pipeline), p.filter.items = []) ∨
     (∃ p ∈ ([exBadPipeline] : List Pipeline), ∃ op ∈ p.config,
        allowedOperatorField op.field = false)) ∧
    ∃ reason, handleSubmission { history := [] } [exBadPipeline] =
      ({ history := [] }, .badRequest reason) :=
  ⟨by decide, invalid_submission_rejected { history := [] } [exBadPipeline] (by decide)⟩

theorem submission_round_trip_witness :
    handleSubmission { history := [] } [exPipeline1] =
      ({ history := exHistOut }, .ok [exPipeline1] exHistOut) ∧
    ([exPipeline1].map (fun p => (p.name, p.orderId, p.enabled, p.config)) =
      [exPipeline1].map (fun p => (p.name, p.orderId, p.enabled, p.config)) ∧
     (getLatest { history := exHistOut }).1.map
        (fun p => (p.name, p.orderId, p.enabled, p.config)) =
      [exPipeline1].map (fun p => (p.name, p.orderId, p.enabled, p.config))) :=
  ⟨by rfl,
   submission_round_trip { history := [] } [exPipeline1] { history := exHistOut }
     [exPipeline1] exHistOut (by rfl)⟩

end Signoz
